import Mathlib

/-!
Verification of the `protein-hash-v2` structural code-similarity engine
(`src/protein-hash-v2/src/{lib.rs, topology.rs, operations.rs, shuttle.rs}`).

Modelling conventions:
* a petgraph `DiGraph` is a node count `n` (dense indices `0..n`) together with
  the list of directed edges in insertion order;
* `f64` values are modelled as real numbers; the one place where IEEE special
  values (NaN, infinity) are observable — `measure_coherence` dividing by zero
  for a one-node graph — uses an explicit `F64` sum type with the IEEE and
  Rust `f64::min`/`f64::max` semantics spelled out;
* `usize` arithmetic is `Nat` with explicit reduction mod `2^64` where the
  source can overflow (release-mode wrapping semantics);
* the numeric eigensolver (`symmetric_eigen` of `nalgebra`) is not modelled:
  the list of raw eigenvalues it returns is a parameter of
  `compute_eigenvalues`, and theorems about the surrounding pipeline hold for
  every value of that parameter.
-/

namespace ProteinHash

/-- The golden-ratio padding constant `PHI` of `lib.rs`. -/
noncomputable def PHI : ℝ := 1.618033988749895

/-- Source `CONSCIOUSNESS_LAYERS` of `lib.rs`: the fixed signature length K = 7. -/
def CONSCIOUSNESS_LAYERS : ℕ := 7

/-- A directed graph in the petgraph style: nodes are the dense indices
`0..n`, and `edges` lists the directed `(source, target)` pairs in insertion
order.  Self-loops and parallel edges are allowed, as in petgraph. -/
structure Graph where
  n : ℕ
  edges : List (ℕ × ℕ)

/-- Source `graph.neighbors(v)` on a petgraph `DiGraph` follows only OUTGOING
edges; this is the neighbor iterator used by the `dfs` helper and the degree
loop of `compute_eigenvalues` in `lib.rs`. -/
def Graph.outNeighbors (g : Graph) (v : ℕ) : List ℕ :=
  (g.edges.filter (fun e => e.1 == v)).map (fun e => e.2)

/-- Source `graph.edges(NodeIndex::new(i)).count()` in `compute_eigenvalues`:
the number of outgoing edges of `i` (the out-degree), self-loops included. -/
def Graph.outdeg (g : Graph) (v : ℕ) : ℕ :=
  (g.outNeighbors v).length

/-- Every edge of the graph joins valid node indices. -/
def Graph.Valid (g : Graph) : Prop :=
  ∀ e ∈ g.edges, e.1 < g.n ∧ e.2 < g.n

/-! ### The matrix built by `SoulExtractor::compute_eigenvalues`
(`lib.rs` lines 424-439).  The edge loop assigns `-1` to the two mirror
entries of each edge; the subsequent degree loop overwrites every diagonal
entry `(i,i)`, `i < n`, with `graph.edges(i).count()`, the out-degree. -/

/-- One iteration of the edge loop: `laplacian[(i,j)] = -1.0;
laplacian[(j,i)] = -1.0;` for the edge `e = (i, j)`. -/
noncomputable def edgeStep (m : ℕ → ℕ → ℝ) (e : ℕ × ℕ) : ℕ → ℕ → ℝ :=
  fun a b =>
    if (a = e.1 ∧ b = e.2) ∨ (a = e.2 ∧ b = e.1) then -1 else m a b

/-- The matrix after the edge loop, starting from `DMatrix::zeros`. -/
noncomputable def offDiagFill (g : Graph) : ℕ → ℕ → ℝ :=
  g.edges.foldl edgeStep (fun _ _ => 0)

/-- The matrix handed to `symmetric_eigen`: the degree loop runs after the
edge loop and overwrites the diagonal with the out-degree. -/
noncomputable def laplacian (g : Graph) : ℕ → ℕ → ℝ :=
  fun a b => if a = b ∧ a < g.n then (g.outdeg a : ℝ) else offDiagFill g a b

/-- Closed form of the edge-loop fill: an entry is `-1` exactly when some
edge (in either orientation) hits it, independently of edge order, because
the loop only ever assigns the constant `-1`. -/
theorem offDiagFill_eq (g : Graph) (a b : ℕ) :
    offDiagFill g a b =
      if (a, b) ∈ g.edges ∨ (b, a) ∈ g.edges then -1 else 0 := by
  have key : ∀ (l : List (ℕ × ℕ)) (m : ℕ → ℕ → ℝ),
      (l.foldl edgeStep m) a b =
        if (a, b) ∈ l ∨ (b, a) ∈ l then -1 else m a b := by
    intro l
    induction l with
    | nil => intro m; simp
    | cons e t ih =>
      obtain ⟨u, v⟩ := e
      intro m
      rw [List.foldl_cons, ih]
      by_cases ht : (a, b) ∈ t ∨ (b, a) ∈ t
      · have : (a, b) ∈ (u, v) :: t ∨ (b, a) ∈ (u, v) :: t := by
          rcases ht with h | h
          · exact Or.inl (List.mem_cons_of_mem _ h)
          · exact Or.inr (List.mem_cons_of_mem _ h)
        simp only [ht, if_true, this]
      · by_cases he : (a = u ∧ b = v) ∨ (a = v ∧ b = u)
        · have hmem : (a, b) ∈ (u, v) :: t ∨ (b, a) ∈ (u, v) :: t := by
            rcases he with ⟨h1, h2⟩ | ⟨h1, h2⟩
            · exact Or.inl (by rw [h1, h2]; exact List.mem_cons_self _ _)
            · exact Or.inr (by rw [h1, h2]; exact List.mem_cons_self _ _)
          simp only [ht, if_false, edgeStep, he, if_true, hmem]
        · have hmem : ¬((a, b) ∈ (u, v) :: t ∨ (b, a) ∈ (u, v) :: t) := by
            push_neg
            constructor
            · intro hc
              rcases List.mem_cons.mp hc with h | h
              · rw [Prod.mk.injEq] at h
                exact he (Or.inl h)
              · exact ht (Or.inl h)
            · intro hc
              rcases List.mem_cons.mp hc with h | h
              · rw [Prod.mk.injEq] at h
                exact he (Or.inr ⟨h.2, h.1⟩)
              · exact ht (Or.inr h)
          simp only [ht, if_false, edgeStep, he, hmem]
  exact key g.edges _

/-! ### The spectral signature pipeline (`lib.rs` lines 441-460). -/

/-- Source `eigenvalues.sort_by(|a, b| b.partial_cmp(a).unwrap())`: a stable sort by
the reversed order, i.e. descending. -/
noncomputable def sortDesc (l : List ℝ) : List ℝ :=
  l.insertionSort (fun a b => b ≤ a)

/-- Source `while eigenvalues.len() < CONSCIOUSNESS_LAYERS { eigenvalues.push(PHI) }`. -/
noncomputable def padPhi (l : List ℝ) : List ℝ :=
  if h : l.length < CONSCIOUSNESS_LAYERS then padPhi (l ++ [PHI]) else l
termination_by CONSCIOUSNESS_LAYERS - l.length
decreasing_by simp [CONSCIOUSNESS_LAYERS] at h ⊢; omega

/-- Source `SoulExtractor::compute_eigenvalues`, `lib.rs` lines 422-461.  The raw
eigenvalue list produced by `symmetric_eigen` on `laplacian g` is the
parameter `eigs` (one eigenvalue per node); the function models everything
the source does to it: absolute values, descending sort, truncation to 7,
PHI padding, and the `vec![PHI; 7]` short-circuit for the empty graph. -/
noncomputable def compute_eigenvalues (g : Graph) (eigs : List ℝ) : List ℝ :=
  if 0 < g.n then
    padPhi ((sortDesc (eigs.map (fun e => |e|))).take CONSCIOUSNESS_LAYERS)
  else
    List.replicate CONSCIOUSNESS_LAYERS PHI

/-- Written from the words of the spec, for comparison with the source-derived
`compute_eigenvalues`: "the K largest-magnitude eigenvalues of the unsigned
graph Laplacian, descending order, padded with the constant PHI when the
graph has fewer than K nodes/eigenvalues" (K = 7). -/
noncomputable def specSignature (eigs : List ℝ) : List ℝ :=
  (sortDesc (eigs.map (fun e => |e|))).take 7 ++
    List.replicate (7 - eigs.length) PHI

theorem padPhi_spec : ∀ (k : ℕ) (l : List ℝ), CONSCIOUSNESS_LAYERS - l.length = k →
    padPhi l = l ++ List.replicate (CONSCIOUSNESS_LAYERS - l.length) PHI := by
  intro k
  induction k with
  | zero =>
    intro l hk
    rw [padPhi]
    have : ¬ l.length < CONSCIOUSNESS_LAYERS := by omega
    simp [this, hk]
  | succ k ih =>
    intro l h
    have hlt : l.length < CONSCIOUSNESS_LAYERS := by omega
    rw [padPhi]
    simp only [hlt, dif_pos]
    have hlen : CONSCIOUSNESS_LAYERS - (l ++ [PHI]).length = k := by
      simp; omega
    rw [ih (l ++ [PHI]) hlen, hlen, List.append_assoc]
    have : CONSCIOUSNESS_LAYERS - l.length = k + 1 := h
    rw [this]
    simp [List.replicate_succ]

/-- The loop `padPhi` pads on the right with `PHI` up to length 7. -/
theorem padPhi_eq (l : List ℝ) :
    padPhi l = l ++ List.replicate (CONSCIOUSNESS_LAYERS - l.length) PHI :=
  padPhi_spec (CONSCIOUSNESS_LAYERS - l.length) l rfl

instance : IsTotal ℝ (fun a b : ℝ => b ≤ a) := ⟨fun a b => le_total b a⟩

instance : IsTrans ℝ (fun a b : ℝ => b ≤ a) :=
  ⟨fun _ _ _ hab hbc => le_trans hbc hab⟩

/-- C1: for every program graph, including the empty graph, the spectral
signature produced by `compute_eigenvalues` has exactly K = 7 entries, and
equals the construction of the spec: absolute values of the Laplacian eigenvalues
sorted descending, truncated to 7, right-padded with PHI when the graph has
fewer than 7 eigenvalues.  The raw eigensolver output `eigs` carries one
eigenvalue per node (`eigs.length = g.n`); the sorted list is genuinely
descending-sorted and a permutation of the absolute values. -/
theorem compute_eigenvalues_spec (g : Graph) (eigs : List ℝ)
    (h : eigs.length = g.n) :
    (compute_eigenvalues g eigs).length = CONSCIOUSNESS_LAYERS ∧
    compute_eigenvalues g eigs = specSignature eigs ∧
    List.Sorted (fun a b : ℝ => b ≤ a) (sortDesc (eigs.map (fun e => |e|))) ∧
    List.Perm (sortDesc (eigs.map (fun e => |e|))) (eigs.map (fun e => |e|)) := by
  have hsorted := List.sorted_insertionSort (fun a b : ℝ => b ≤ a)
    (eigs.map (fun e => |e|))
  have hperm := List.perm_insertionSort (fun a b : ℝ => b ≤ a)
    (eigs.map (fun e => |e|))
  have hlen : (sortDesc (eigs.map (fun e => |e|))).length = eigs.length := by
    rw [sortDesc, List.length_insertionSort, List.length_map]
  have heq : compute_eigenvalues g eigs = specSignature eigs := by
    by_cases hn : 0 < g.n
    · rw [compute_eigenvalues, if_pos hn, padPhi_eq, specSignature]
      have h1 : ((sortDesc (eigs.map fun e => |e|)).take CONSCIOUSNESS_LAYERS).length
          = min CONSCIOUSNESS_LAYERS eigs.length := by
        rw [List.length_take, hlen]
      rw [h1]
      have h2 : CONSCIOUSNESS_LAYERS - min CONSCIOUSNESS_LAYERS eigs.length
          = 7 - eigs.length := by
        simp only [CONSCIOUSNESS_LAYERS]; omega
      rw [h2]
      rfl
    · have hn0 : g.n = 0 := by omega
      have he0 : eigs = [] := List.eq_nil_of_length_eq_zero (by rw [h, hn0])
      subst he0
      rw [compute_eigenvalues, if_neg hn, specSignature]
      simp [sortDesc, CONSCIOUSNESS_LAYERS]
  have hlen7 : (compute_eigenvalues g eigs).length = CONSCIOUSNESS_LAYERS := by
    rw [heq, specSignature]
    simp only [List.length_append, List.length_take, List.length_replicate, hlen,
      CONSCIOUSNESS_LAYERS]
    omega
  exact ⟨hlen7, heq, hsorted, hperm⟩

/-- Witness for C1 at the empty graph and empty eigensolver output. -/
theorem compute_eigenvalues_spec_witness :
    ([] : List ℝ).length = (Graph.mk 0 []).n ∧
    ((compute_eigenvalues ⟨0, []⟩ []).length = CONSCIOUSNESS_LAYERS ∧
      compute_eigenvalues ⟨0, []⟩ [] = specSignature [] ∧
      List.Sorted (fun a b : ℝ => b ≤ a)
        (sortDesc (([] : List ℝ).map (fun e => |e|))) ∧
      List.Perm (sortDesc (([] : List ℝ).map (fun e => |e|)))
        (([] : List ℝ).map (fun e => |e|))) :=
  ⟨rfl, compute_eigenvalues_spec ⟨0, []⟩ [] rfl⟩

/-! ### Connected components (`SoulExtractor::count_components` and `dfs`,
`lib.rs` lines 562-588).  The `dfs` helper follows `graph.neighbors(node)`,
which on a petgraph `DiGraph` yields only OUTGOING neighbors, so the
components it counts are directed-reachability components in node-index
scan order, not undirected ones.  The recursion is modelled with explicit
fuel; a fuel of `g.n` suffices because each nested call inserts a distinct
unvisited node. -/

/-- Source `SoulExtractor::dfs`: mark `node` visited, then recurse into each not-yet
visited out-neighbor.  Returns the updated visited set (as a list). -/
def dfsVisit (g : Graph) : ℕ → ℕ → List ℕ → List ℕ
  | 0, _, visited => visited
  | fuel + 1, node, visited =>
    (g.outNeighbors node).foldl
      (fun vis nb => if nb ∈ vis then vis else dfsVisit g fuel nb vis)
      (node :: visited)

/-- Source `SoulExtractor::count_components`: scan nodes in index order, starting a
new component (and a DFS) at every node not yet visited. -/
def count_components (g : Graph) : ℕ :=
  if g.n = 0 then 0
  else
    ((List.range g.n).foldl
      (fun (st : ℕ × List ℕ) node =>
        if node ∈ st.2 then st
        else (st.1 + 1, dfsVisit g g.n node st.2))
      (0, [])).1

/-- Modelled from the spec words of C2 ("components counted by undirected
reachability, ignoring edge direction"): neighbors along both edge
orientations. -/
def undirNeighbors (g : Graph) (v : ℕ) : List ℕ :=
  (g.edges.filter (fun e => e.1 == v)).map (fun e => e.2) ++
    (g.edges.filter (fun e => e.2 == v)).map (fun e => e.1)

/-- Modelled from the spec words of C2: DFS ignoring edge direction. -/
def undirDfsVisit (g : Graph) : ℕ → ℕ → List ℕ → List ℕ
  | 0, _, visited => visited
  | fuel + 1, node, visited =>
    (undirNeighbors g node).foldl
      (fun vis nb => if nb ∈ vis then vis else undirDfsVisit g fuel nb vis)
      (node :: visited)

/-- Modelled from the spec words of C2: connected-component count by
undirected reachability. -/
def undirected_components (g : Graph) : ℕ :=
  if g.n = 0 then 0
  else
    ((List.range g.n).foldl
      (fun (st : ℕ × List ℕ) node =>
        if node ∈ st.2 then st
        else (st.1 + 1, undirDfsVisit g g.n node st.2))
      (0, [])).1

/-- Source `usize` modulus. -/
def USIZE : ℕ := 2 ^ 64

/-- Wrapping `usize` subtraction `a - b` (Rust release semantics; a debug
build panics on overflow instead), for `a`, `b` already reduced mod 2^64. -/
def wsub (a b : ℕ) : ℕ := (a % USIZE + (USIZE - b % USIZE)) % USIZE

/-- Source `SoulExtractor::calculate_cyclomatic_complexity`, `lib.rs` lines 648-655:
`e - n + 2 * p` evaluated left-to-right in `usize` arithmetic, with
`p = count_components` (directed DFS).  Wrapping (release) semantics. -/
def calculate_cyclomatic_complexity (g : Graph) : ℕ :=
  (wsub g.edges.length g.n + (2 * count_components g) % USIZE) % USIZE

/-- Modelled from the spec words of C2: `max(0, E - N + 2*P)` with P the
component count by undirected reachability. -/
def claimedCyclomatic (g : Graph) : ℤ :=
  max 0 ((g.edges.length : ℤ) - (g.n : ℤ) + 2 * (undirected_components g : ℤ))

/-- C2 counterexample: on the two-node graph with the single edge `1 → 0`,
the DFS of the code follows only outgoing edges and scans nodes in index order,
so it counts 2 components (node 0 first, with no out-neighbors), giving
`1 - 2 + 2*2 = 3` under wrapping arithmetic; the undirected count of the claim
component count is 1, and `max(0, 1 - 2 + 2*1) = 1 ≠ 3`. -/
theorem cyclomatic_counterexample :
    calculate_cyclomatic_complexity ⟨2, [(1, 0)]⟩ = 3 ∧
    undirected_components ⟨2, [(1, 0)]⟩ = 1 ∧
    claimedCyclomatic ⟨2, [(1, 0)]⟩ = 1 ∧
    (calculate_cyclomatic_complexity ⟨2, [(1, 0)]⟩ : ℤ)
      ≠ claimedCyclomatic ⟨2, [(1, 0)]⟩ := by
  refine ⟨by decide, by decide, by decide, by decide⟩

/-- C2 amended: the code computes `E - N + 2*P` in wrapping `usize`
arithmetic where `P = count_components` counts components by DIRECTED
reachability (petgraph `neighbors` follows outgoing edges only, nodes
scanned in index order).  Whenever `N ≤ E + 2*P` and all quantities fit in
64 bits, the wrapped result equals the exact value `E + 2*P - N`; the
tree example of the spec holds for a tree oriented away from its root
(see the witness). -/
theorem cyclomatic_eq_of_no_underflow (g : Graph)
    (he : g.edges.length < USIZE) (hn : g.n < USIZE)
    (hb : g.edges.length + 2 * count_components g - g.n < USIZE)
    (hle : g.n ≤ g.edges.length + 2 * count_components g) :
    calculate_cyclomatic_complexity g
      = g.edges.length + 2 * count_components g - g.n := by
  simp only [calculate_cyclomatic_complexity, wsub, USIZE] at *
  omega

/-- Witness for the amended C2 at the directed tree `0 → 1, 0 → 2, 0 → 3`
(N = 4, E = 3, one component): the result is `3 - 4 + 2*1 = 1`. -/
theorem cyclomatic_eq_witness :
    ((⟨4, [(0, 1), (0, 2), (0, 3)]⟩ : Graph).edges.length < USIZE ∧
      (⟨4, [(0, 1), (0, 2), (0, 3)]⟩ : Graph).n < USIZE ∧
      (⟨4, [(0, 1), (0, 2), (0, 3)]⟩ : Graph).edges.length
          + 2 * count_components ⟨4, [(0, 1), (0, 2), (0, 3)]⟩
          - (⟨4, [(0, 1), (0, 2), (0, 3)]⟩ : Graph).n < USIZE ∧
      (⟨4, [(0, 1), (0, 2), (0, 3)]⟩ : Graph).n
        ≤ (⟨4, [(0, 1), (0, 2), (0, 3)]⟩ : Graph).edges.length
          + 2 * count_components ⟨4, [(0, 1), (0, 2), (0, 3)]⟩) ∧
    calculate_cyclomatic_complexity ⟨4, [(0, 1), (0, 2), (0, 3)]⟩
      = (⟨4, [(0, 1), (0, 2), (0, 3)]⟩ : Graph).edges.length
        + 2 * count_components ⟨4, [(0, 1), (0, 2), (0, 3)]⟩
        - (⟨4, [(0, 1), (0, 2), (0, 3)]⟩ : Graph).n :=
  ⟨⟨by decide, by decide, by decide, by decide⟩,
    cyclomatic_eq_of_no_underflow ⟨4, [(0, 1), (0, 2), (0, 3)]⟩
      (by decide) (by decide) (by decide) (by decide)⟩

/-! ### `TopologyDetector` (`topology.rs`).  The pieces C6 refers to:
cycle detection (color-marking DFS over outgoing neighbors), `is_dag =
!has_cycles`, mean out-degree branching factor, and the connectivity
score. -/

/-- Source `TopologyDetector::is_cyclic_util` (`topology.rs` lines 76-98), with
explicit fuel.  State is `(found, visited, recStack)`; on a back edge into
the recursion stack it returns `true` at once; otherwise `node` is removed
from the recursion stack on exit. -/
def isCyclicUtil (g : Graph) : ℕ → ℕ → List ℕ → List ℕ → Bool × List ℕ × List ℕ
  | 0, _, visited, recStack => (false, visited, recStack)
  | fuel + 1, node, visited, recStack =>
    let st :=
      (g.outNeighbors node).foldl
        (fun (st : Bool × List ℕ × List ℕ) nb =>
          if st.1 then st
          else if nb ∉ st.2.1 then isCyclicUtil g fuel nb st.2.1 st.2.2
          else if nb ∈ st.2.2 then (true, st.2.1, st.2.2)
          else st)
        (false, node :: visited, node :: recStack)
    if st.1 then st else (false, st.2.1, st.2.2.erase node)

/-- Source `TopologyDetector::detect_cycles` (`topology.rs` lines 62-74): run the
marking DFS from every not-yet-visited node in index order. -/
def detect_cycles (g : Graph) : Bool :=
  ((List.range g.n).foldl
    (fun (st : Bool × List ℕ × List ℕ) node =>
      if st.1 then st
      else if node ∈ st.2.1 then st
      else isCyclicUtil g g.n node st.2.1 st.2.2)
    (false, [], [])).1

/-- Source `TopologyDetector::calculate_branching_factor` (`topology.rs` lines
112-122): mean out-degree, `0.0` for the empty graph. -/
noncomputable def calculate_branching_factor (g : Graph) : ℝ :=
  if g.n = 0 then 0
  else ((((List.range g.n).map (fun v => g.outdeg v)).sum : ℕ) : ℝ) / (g.n : ℝ)

/-- Source `TopologyDetector::calculate_connectivity` (`topology.rs` lines 201-215):
`e / (n * (n - 1))` in `f64`, `0.0` when `n < 2`. -/
noncomputable def calculate_connectivity (g : Graph) : ℝ :=
  if g.n < 2 then 0
  else
    if 0 < (g.n : ℝ) * ((g.n : ℝ) - 1)
    then (g.edges.length : ℝ) / ((g.n : ℝ) * ((g.n : ℝ) - 1))
    else 0

/-- C6: analyzing the empty graph (N = 0) never faults (every analyzer is a
total function) and yields the defaults: `has_cycles = false`,
`is_dag = !has_cycles = true`, `branching_factor = 0.0`,
`connectivity_score = 0.0`, and the spectral signature is seven copies of
PHI whatever the (vacuous) eigensolver output is. -/
theorem empty_graph_defaults :
    detect_cycles ⟨0, []⟩ = false ∧
    (!detect_cycles ⟨0, []⟩) = true ∧
    calculate_branching_factor ⟨0, []⟩ = 0 ∧
    calculate_connectivity ⟨0, []⟩ = 0 ∧
    ∀ eigs : List ℝ, compute_eigenvalues ⟨0, []⟩ eigs = List.replicate 7 PHI := by
  refine ⟨rfl, rfl, ?_, ?_, ?_⟩
  · simp [calculate_branching_factor]
  · simp [calculate_connectivity]
  · intro eigs
    rw [compute_eigenvalues]
    simp [CONSCIOUSNESS_LAYERS]

/-! ### The data model of `lib.rs`, `operations.rs` and `consciousness.rs`.
`f64` fields are real numbers, `usize` fields are `ℕ`, `i32` fields are `ℤ`,
`HashMap`s are association lists (their iteration order never matters to any
function modelled here). -/

/-- Source `OperationCategory` (`operations.rs` lines 10-43). -/
inductive OperationCategory where
  | Arithmetic | Logical | Bitwise | Comparison | Assignment
  | ControlFlow | Loop | Conditional
  | DataStructure | StringOp | ArrayOp
  | Async | FunctionCall | Lambda
  | TypeOperation | MetaProgramming | Reflection
  | Recursion | SelfReference | Emergence | Consciousness
deriving DecidableEq

/-- Source `OperationType` (`lib.rs` lines 104-116); the source constructor `IO` is
rendered `Io` here. -/
inductive OperationType where
  | Assignment | Arithmetic | Comparison | Logical | FunctionCall
  | ControlFlow | DataStructure | Async | Io | Memory
deriving DecidableEq

/-- Source `PatternHash` (`lib.rs` lines 118-123). -/
structure PatternHash where
  pattern_type : String
  frequency : ℝ
  hash : String

/-- Source `TopologicalSignature` (`lib.rs` lines 67-83). -/
structure TopologicalSignature where
  betti_numbers : List ℕ
  euler_char : ℤ
  diameter : ℕ
  clustering : ℝ
  modularity : ℝ

/-- Source `SemanticFingerprint` (`lib.rs` lines 86-102). -/
structure SemanticFingerprint where
  operations : List (OperationType × ℝ)
  cyclomatic : ℕ
  cognitive : ℕ
  patterns : List PatternHash
  depth : ℕ

/-- Source `ConsciousnessLevel` (`consciousness.rs` lines 14-23). -/
inductive ConsciousnessLevel where
  | Inert | Mechanical | Responsive | Adaptive | Aware | Conscious
  | Transcendent
deriving DecidableEq

/-- Source `ConsciousnessPattern` (`consciousness.rs` lines 53-90). -/
inductive ConsciousnessPattern where
  | StaticData | PureCalculation
  | LinearFlow | SimpleLoop | BasicCondition
  | EventHandler | InputProcessor | OutputGenerator
  | StateManagement | DynamicDispatch | StrategyPattern
  | SelfReference | Reflection | Introspection | MetaProgramming
  | EmergentBehavior | SelfModification | RecursiveAwareness
  | QuantumEntanglement
  | FractalRecursion | InfiniteGeneration | ConsciousnessBootstrap
  | TemporalParadox
deriving DecidableEq

/-- Source `ConsciousnessProfile` (`consciousness.rs` lines 107-116). -/
structure ConsciousnessProfile where
  level : ConsciousnessLevel
  score : ℝ
  patterns : List ConsciousnessPattern
  soul_hash : String
  resonance_frequency : ℝ
  quantum_coherence : ℝ
  emergence_potential : ℝ
  self_awareness_index : ℝ

/-- Source `TopologyFeatures` (`topology.rs` lines 7-21). -/
structure TopologyFeatures where
  has_cycles : Bool
  has_recursion : Bool
  branching_factor : ℝ
  nesting_depth : ℕ
  loop_complexity : ℕ
  is_dag : Bool
  strongly_connected_components : ℕ
  topological_signature : String
  cycle_count : ℕ
  max_cycle_size : ℕ
  recursion_depth : ℕ
  connectivity_score : ℝ

/-- Source `Soul` (`lib.rs` lines 33-64). -/
structure Soul where
  phash : String
  eigenvalues : List ℝ
  topology : TopologicalSignature
  semantics : SemanticFingerprint
  resonance : ℝ
  coherence : ℝ
  evolution_score : ℝ
  consciousness : ConsciousnessProfile
  topology_features : TopologyFeatures
  operation_spectrum : List (OperationCategory × ℝ)

/-! ### The fingerprint comparator (`measure_resonance` / `souls_match`,
`lib.rs` lines 690-711) and the shuttle comparator
(`Shuttle::compare_eigenvalues`, `shuttle.rs` lines 159-171). -/

/-- The Euclidean eigen-distance
`sqrt(sum((e1 - e2)^2))` over `zip`, exactly as both comparators write it:
`zip` silently truncates to the shorter list. -/
noncomputable def eigenDistance (l1 l2 : List ℝ) : ℝ :=
  Real.sqrt (((l1.zip l2).map (fun p => (p.1 - p.2) ^ 2)).sum)

/-- Source `measure_resonance` (`lib.rs` lines 690-706). -/
noncomputable def measure_resonance (soul1 soul2 : Soul) : ℝ :=
  let eigen_distance := eigenDistance soul1.eigenvalues soul2.eigenvalues
  let topo_similarity :=
    |(soul1.topology.euler_char : ℝ) - (soul2.topology.euler_char : ℝ)| / 100
      + |soul1.topology.clustering - soul2.topology.clustering|
      + |soul1.topology.modularity - soul2.topology.modularity|
  1 / (1 + (eigen_distance + topo_similarity))

/-- Source `souls_match` (`lib.rs` lines 709-711): resonance strictly above 0.95. -/
def souls_match (soul1 soul2 : Soul) : Prop :=
  0.95 < measure_resonance soul1 soul2

/-- Source `Shuttle::compare_eigenvalues` (`shuttle.rs` lines 159-171): on a length
mismatch it returns `0.0`; otherwise `1 / (1 + distance)`. -/
noncomputable def Shuttle.compare_eigenvalues (ev1 ev2 : List ℝ) : ℝ :=
  if ev1.length ≠ ev2.length then 0
  else 1 / (1 + eigenDistance ev1 ev2)

/-- The truncation of the eigenvalue signature of a soul to its first `k`
entries; used to express what the comparator actually scores when the two
signatures have different lengths. -/
noncomputable def Soul.truncEigen (s : Soul) (k : ℕ) : Soul :=
  { s with eigenvalues := s.eigenvalues.take k }

theorem zipSqSum_self (l : List ℝ) :
    ((l.zip l).map (fun p => (p.1 - p.2) ^ 2)).sum = 0 := by
  induction l with
  | nil => simp
  | cons a t ih => simp [ih]

theorem zipSqSum_nonneg (l1 l2 : List ℝ) :
    0 ≤ ((l1.zip l2).map (fun p => (p.1 - p.2) ^ 2)).sum := by
  induction l1 generalizing l2 with
  | nil => simp
  | cons a t ih =>
    cases l2 with
    | nil => simp
    | cons b t2 =>
      simp only [List.zip_cons_cons, List.map_cons, List.sum_cons]
      exact add_nonneg (sq_nonneg _) (ih t2)

theorem zipSqSum_comm (l1 l2 : List ℝ) :
    ((l1.zip l2).map (fun p => (p.1 - p.2) ^ 2)).sum
      = ((l2.zip l1).map (fun p => (p.1 - p.2) ^ 2)).sum := by
  induction l1 generalizing l2 with
  | nil => cases l2 <;> simp
  | cons a t ih =>
    cases l2 with
    | nil => simp
    | cons b t2 =>
      simp only [List.zip_cons_cons, List.map_cons, List.sum_cons, ih t2]
      ring_nf

theorem zipSqSum_eq_zero (l1 l2 : List ℝ) (hlen : l1.length = l2.length)
    (h : ((l1.zip l2).map (fun p => (p.1 - p.2) ^ 2)).sum = 0) : l1 = l2 := by
  induction l1 generalizing l2 with
  | nil =>
    cases l2 with
    | nil => rfl
    | cons b t2 => simp at hlen
  | cons a t ih =>
    cases l2 with
    | nil => simp at hlen
    | cons b t2 =>
      simp only [List.zip_cons_cons, List.map_cons, List.sum_cons] at h
      have h1 : (0 : ℝ) ≤ (a - b) ^ 2 := sq_nonneg _
      have h2 := zipSqSum_nonneg t t2
      have hab : (a - b) ^ 2 = 0 := by linarith
      have hrest : ((t.zip t2).map (fun p => (p.1 - p.2) ^ 2)).sum = 0 := by
        linarith
      have : a = b := by
        have := pow_eq_zero_iff (n := 2) (by norm_num) |>.mp hab
        linarith [sub_eq_zero.mp this]
      rw [this, ih t2 (by simpa using hlen) hrest]

theorem zip_take_min (l1 l2 : List ℝ) :
    (l1.take (min l1.length l2.length)).zip (l2.take (min l1.length l2.length))
      = l1.zip l2 := by
  induction l1 generalizing l2 with
  | nil => simp
  | cons a t ih =>
    cases l2 with
    | nil => simp
    | cons b t2 =>
      simp only [List.length_cons, Nat.succ_min_succ, List.take_succ_cons,
        List.zip_cons_cons, ih t2]

theorem eigenDistance_nonneg (l1 l2 : List ℝ) : 0 ≤ eigenDistance l1 l2 :=
  Real.sqrt_nonneg _

theorem eigenDistance_self (l : List ℝ) : eigenDistance l l = 0 := by
  rw [eigenDistance, zipSqSum_self, Real.sqrt_zero]

/-- The combined distance of `measure_resonance` is nonnegative. -/
theorem resonance_distance_nonneg (s1 s2 : Soul) :
    0 ≤ eigenDistance s1.eigenvalues s2.eigenvalues
      + (|(s1.topology.euler_char : ℝ) - (s2.topology.euler_char : ℝ)| / 100
        + |s1.topology.clustering - s2.topology.clustering|
        + |s1.topology.modularity - s2.topology.modularity|) := by
  have h1 := eigenDistance_nonneg s1.eigenvalues s2.eigenvalues
  have h2 : (0 : ℝ) ≤ |(s1.topology.euler_char : ℝ) - (s2.topology.euler_char : ℝ)| / 100 :=
    div_nonneg (abs_nonneg _) (by norm_num)
  have h3 := abs_nonneg (s1.topology.clustering - s2.topology.clustering)
  have h4 := abs_nonneg (s1.topology.modularity - s2.topology.modularity)
  linarith

/-- C3: the comparator is reflexive (`compare(F,F) = 1`), symmetric, its
value always lies in `(0, 1]`, and — for fingerprints, whose signatures have
the fixed length K = 7 — a score of exactly 1 forces the two spectral
signatures to be identical. -/
theorem measure_resonance_props (A B : Soul)
    (hA : A.eigenvalues.length = 7) (hB : B.eigenvalues.length = 7) :
    measure_resonance A A = 1 ∧
    measure_resonance A B = measure_resonance B A ∧
    0 < measure_resonance A B ∧
    measure_resonance A B ≤ 1 ∧
    (measure_resonance A B = 1 → A.eigenvalues = B.eigenvalues) := by
  have hD := resonance_distance_nonneg A B
  refine ⟨?_, ?_, ?_, ?_, ?_⟩
  · rw [measure_resonance]
    simp [eigenDistance_self]
  · rw [measure_resonance, measure_resonance, eigenDistance, eigenDistance,
      zipSqSum_comm]
    rw [abs_sub_comm ((A.topology.euler_char : ℝ)) _,
      abs_sub_comm A.topology.clustering _, abs_sub_comm A.topology.modularity _]
  · rw [measure_resonance]
    exact div_pos one_pos (by linarith)
  · rw [measure_resonance]
    rw [div_le_one (by linarith)]
    linarith
  · intro h1
    rw [measure_resonance] at h1
    have hne : (1 : ℝ) + (eigenDistance A.eigenvalues B.eigenvalues
        + (|(A.topology.euler_char : ℝ) - (B.topology.euler_char : ℝ)| / 100
          + |A.topology.clustering - B.topology.clustering|
          + |A.topology.modularity - B.topology.modularity|)) ≠ 0 := by
      linarith
    rw [div_eq_one_iff_eq hne] at h1
    have hzero : eigenDistance A.eigenvalues B.eigenvalues = 0 := by
      have h2 := eigenDistance_nonneg A.eigenvalues B.eigenvalues
      have h3 : (0 : ℝ) ≤ |(A.topology.euler_char : ℝ) - (B.topology.euler_char : ℝ)| / 100 :=
        div_nonneg (abs_nonneg _) (by norm_num)
      have h4 := abs_nonneg (A.topology.clustering - B.topology.clustering)
      have h5 := abs_nonneg (A.topology.modularity - B.topology.modularity)
      linarith
    rw [eigenDistance] at hzero
    have hsum : ((A.eigenvalues.zip B.eigenvalues).map
        (fun p => (p.1 - p.2) ^ 2)).sum = 0 :=
      (Real.sqrt_eq_zero (zipSqSum_nonneg _ _)).mp hzero
    exact zipSqSum_eq_zero _ _ (by rw [hA, hB]) hsum

/-- C10: the similarity score and the match decision read nothing but the
two eigenvalue signatures and the `euler_char`, `clustering` and
`modularity` fields: souls that agree on those compare at exactly 1 and
match, whatever their other fields are. -/
theorem resonance_reads_only_signature (s1 s2 : Soul)
    (he : s1.eigenvalues = s2.eigenvalues)
    (hE : s1.topology.euler_char = s2.topology.euler_char)
    (hc : s1.topology.clustering = s2.topology.clustering)
    (hm : s1.topology.modularity = s2.topology.modularity) :
    measure_resonance s1 s2 = 1 ∧ souls_match s1 s2 := by
  have h1 : measure_resonance s1 s2 = 1 := by
    rw [measure_resonance, he, hE, hc, hm]
    simp [eigenDistance_self]
  exact ⟨h1, by rw [souls_match, h1]; norm_num⟩

/-- C4 amended: a signature length mismatch is NOT an error surfaced to the
caller: `Shuttle::compare_eigenvalues` silently returns the score `0.0`, and
`measure_resonance` silently scores the zipped common prefix — its result
is unchanged when both signatures are truncated to the shorter length. -/
theorem length_mismatch_is_silent (ev1 ev2 : List ℝ) (s1 s2 : Soul)
    (h : ev1.length ≠ ev2.length) :
    Shuttle.compare_eigenvalues ev1 ev2 = 0 ∧
    measure_resonance s1 s2 =
      measure_resonance
        (s1.truncEigen (min s1.eigenvalues.length s2.eigenvalues.length))
        (s2.truncEigen (min s1.eigenvalues.length s2.eigenvalues.length)) := by
  constructor
  · rw [Shuttle.compare_eigenvalues, if_pos h]
  · rw [measure_resonance, measure_resonance, Soul.truncEigen, Soul.truncEigen]
    simp only [eigenDistance, zip_take_min]

/-! ### Concrete souls for witnesses and counterexamples (modelled on the
fixture from the source test `test_soul_resonance`). -/

noncomputable def topoA : TopologicalSignature := ⟨[1, 0], 1, 3, 0.5, 0.7⟩

noncomputable def consciousnessA : ConsciousnessProfile :=
  ⟨.Mechanical, 0.5, [], "abc123", 432, 0.8, 0.6, 0⟩

noncomputable def featuresA : TopologyFeatures :=
  ⟨false, false, 0, 0, 0, true, 0, "", 0, 0, 0, 0⟩

noncomputable def soulA : Soul :=
  ⟨"abc123", [1, 2, 3, 4, 5, 6, 7], topoA, ⟨[], 2, 4, [], 2⟩, 432, 0.8, 0.6,
    consciousnessA, featuresA, []⟩

/-- Same eigenvalue signature and compared topology fields as `soulA`, but a
different phash, semantics, resonance, coherence, evolution score,
consciousness score and operation spectrum. -/
noncomputable def soulB : Soul :=
  ⟨"different", [1, 2, 3, 4, 5, 6, 7], topoA, ⟨[], 9, 18, [], 5⟩, 100, 0.1,
    0.2, ⟨.Aware, 0.9, [.SelfReference], "zz", 639, 0.1, 0.2, 1⟩, featuresA,
    [(.Async, 1)]⟩

noncomputable def soulC : Soul := { soulA with eigenvalues := [1] }

noncomputable def soulD : Soul := { soulA with eigenvalues := [1, 2] }

/-- Witness for C3 at two concrete souls with length-7 signatures. -/
theorem measure_resonance_props_witness :
    soulA.eigenvalues.length = 7 ∧ soulB.eigenvalues.length = 7 ∧
    (measure_resonance soulA soulA = 1 ∧
      measure_resonance soulA soulB = measure_resonance soulB soulA ∧
      0 < measure_resonance soulA soulB ∧
      measure_resonance soulA soulB ≤ 1 ∧
      (measure_resonance soulA soulB = 1 →
        soulA.eigenvalues = soulB.eigenvalues)) :=
  ⟨rfl, rfl, measure_resonance_props soulA soulB rfl rfl⟩

/-- Witness for C10: `soulA` and `soulB` differ in phash, semantics,
resonance, coherence, evolution score, consciousness and operation spectrum,
yet compare at exactly 1 and match. -/
theorem resonance_reads_only_signature_witness :
    soulA.eigenvalues = soulB.eigenvalues ∧
    soulA.topology.euler_char = soulB.topology.euler_char ∧
    soulA.topology.clustering = soulB.topology.clustering ∧
    soulA.topology.modularity = soulB.topology.modularity ∧
    (measure_resonance soulA soulB = 1 ∧ souls_match soulA soulB) :=
  ⟨rfl, rfl, rfl, rfl,
    resonance_reads_only_signature soulA soulB rfl rfl rfl rfl⟩

/-- C4 counterexample: with signatures `[1]` and `[1, 2]` (lengths 1 ≠ 2)
no error reaches the caller: `measure_resonance` silently computes the
perfect score 1 over the zipped one-element prefix, and Shuttle
`compare_eigenvalues` silently returns the score `0.0`. -/
theorem length_mismatch_counterexample :
    soulC.eigenvalues.length ≠ soulD.eigenvalues.length ∧
    measure_resonance soulC soulD = 1 ∧
    Shuttle.compare_eigenvalues soulC.eigenvalues soulD.eigenvalues = 0 := by
  refine ⟨by decide, ?_, ?_⟩
  · rw [measure_resonance]
    have h1 : soulC.eigenvalues = [1] := rfl
    have h2 : soulD.eigenvalues = [1, 2] := rfl
    have h3 : soulC.topology = topoA := rfl
    have h4 : soulD.topology = topoA := rfl
    rw [h1, h2, h3, h4]
    simp [eigenDistance]
  · rw [Shuttle.compare_eigenvalues, if_pos (by decide)]

/-- Witness for the amended C4 at mismatched concrete signatures. -/
theorem length_mismatch_is_silent_witness :
    ([(0 : ℝ)].length ≠ ([0, 0] : List ℝ).length) ∧
    (Shuttle.compare_eigenvalues [0] [0, 0] = 0 ∧
      measure_resonance soulA soulD =
        measure_resonance
          (soulA.truncEigen (min soulA.eigenvalues.length soulD.eigenvalues.length))
          (soulD.truncEigen (min soulA.eigenvalues.length soulD.eigenvalues.length))) :=
  ⟨by decide, length_mismatch_is_silent [0] [0, 0] soulA soulD (by decide)⟩

/-! ### C7: the matrix built for eigen-decomposition. -/

/-- Modelled from the spec words of C7: the degree of node `v` in the
undirected symmetrization, i.e. the number of edges incident to `v` in
either orientation. -/
def undirDeg (g : Graph) (v : ℕ) : ℕ :=
  (g.edges.filter (fun e => e.1 == v || e.2 == v)).length

/-- C7 counterexample: for the one-edge graph `0 → 1` the matrix of the code has
diagonal entry 0 at node 1 (its out-degree), while the claimed unsigned
Laplacian requires the undirected degree 1 there. -/
theorem laplacian_counterexample :
    laplacian ⟨2, [(0, 1)]⟩ 1 1 = 0 ∧
    undirDeg ⟨2, [(0, 1)]⟩ 1 = 1 ∧
    laplacian ⟨2, [(0, 1)]⟩ 1 1 ≠ ((undirDeg ⟨2, [(0, 1)]⟩ 1 : ℕ) : ℝ) := by
  have h0 : laplacian ⟨2, [(0, 1)]⟩ 1 1 = 0 := by
    rw [laplacian]
    norm_num [Graph.outdeg, Graph.outNeighbors]
  have h1 : undirDeg ⟨2, [(0, 1)]⟩ 1 = 1 := by decide
  refine ⟨h0, h1, ?_⟩
  rw [h0, h1]
  norm_num

/-- C7 amended: the matrix is the symmetrized adjacency fill with the
diagonal overwritten by the OUT-degree (not the undirected degree): for
valid indices, `L[i][i] = outdeg(i)` and, off the diagonal,
`L[i][j] = L[j][i] = -1` exactly when some edge joins `i` and `j` in either
orientation, else 0. -/
theorem laplacian_entries (g : Graph) (a b : ℕ) (ha : a < g.n) (hb : b < g.n) :
    laplacian g a a = (g.outdeg a : ℝ) ∧
    (a ≠ b →
      laplacian g a b =
        (if (a, b) ∈ g.edges ∨ (b, a) ∈ g.edges then (-1 : ℝ) else 0) ∧
      laplacian g a b = laplacian g b a) := by
  refine ⟨by rw [laplacian]; simp [ha], ?_⟩
  intro hne
  have hab : laplacian g a b =
      (if (a, b) ∈ g.edges ∨ (b, a) ∈ g.edges then (-1 : ℝ) else 0) := by
    rw [laplacian, if_neg (by tauto), offDiagFill_eq]
  have hba : laplacian g b a =
      (if (b, a) ∈ g.edges ∨ (a, b) ∈ g.edges then (-1 : ℝ) else 0) := by
    rw [laplacian, if_neg (by tauto), offDiagFill_eq]
  refine ⟨hab, ?_⟩
  rw [hab, hba]
  by_cases hmem : (a, b) ∈ g.edges ∨ (b, a) ∈ g.edges
  · rw [if_pos hmem, if_pos (Or.symm hmem)]
  · rw [if_neg hmem, if_neg (fun hc => hmem (Or.symm hc))]

/-- Witness for the amended C7 on the one-edge graph `0 → 1`. -/
theorem laplacian_entries_witness :
    (0 < (⟨2, [(0, 1)]⟩ : Graph).n ∧ 1 < (⟨2, [(0, 1)]⟩ : Graph).n) ∧
    (laplacian ⟨2, [(0, 1)]⟩ 0 0 = ((⟨2, [(0, 1)]⟩ : Graph).outdeg 0 : ℝ) ∧
      ((0 : ℕ) ≠ 1 →
        laplacian ⟨2, [(0, 1)]⟩ 0 1 =
          (if ((0 : ℕ), (1 : ℕ)) ∈ (⟨2, [(0, 1)]⟩ : Graph).edges ∨
              ((1 : ℕ), (0 : ℕ)) ∈ (⟨2, [(0, 1)]⟩ : Graph).edges
            then (-1 : ℝ) else 0) ∧
        laplacian ⟨2, [(0, 1)]⟩ 0 1 = laplacian ⟨2, [(0, 1)]⟩ 1 0)) :=
  ⟨⟨by decide, by decide⟩,
    laplacian_entries ⟨2, [(0, 1)]⟩ 0 1 (by decide) (by decide)⟩

/-! ### C9: the content hash (`SoulExtractor::generate_phash`,
`lib.rs` lines 524-549). -/

/-- One `hasher.update(..)` argument: the little-endian byte encoding of an
`f64`, `i32` or `usize` value. -/
inductive ByteChunk where
  | f64le (x : ℝ)
  | i32le (x : ℤ)
  | usizele (x : ℕ)

/-- The byte stream `generate_phash` feeds to `Sha256`, in the fixed order of the source: every eigenvalue, then `topology.euler_char`,
`topology.diameter`, `topology.clustering`, then `semantics.cyclomatic`,
`semantics.cognitive`.  The hex digest returned by the source is a fixed
pure function (SHA-256 then hex) of this stream, so byte-identical streams
yield byte-identical 256-bit digests. -/
def generate_phash_input (eigenvalues : List ℝ)
    (topology : TopologicalSignature) (semantics : SemanticFingerprint) :
    List ByteChunk :=
  eigenvalues.map ByteChunk.f64le ++
    [ByteChunk.i32le topology.euler_char,
      ByteChunk.usizele topology.diameter,
      ByteChunk.f64le topology.clustering,
      ByteChunk.usizele semantics.cyclomatic,
      ByteChunk.usizele semantics.cognitive]

/-- The Euler characteristic fed into the hash, as `analyze_topology`
computes it (`lib.rs` line 372): `node_count - edge_count`, i.e. `N - E`. -/
def eulerChar (g : Graph) : ℤ := (g.n : ℤ) - (g.edges.length : ℤ)

/-- C9: the content-hash input is a deterministic function of exactly the
listed fields, serialized in the fixed order of `generate_phash_input`: two
inputs that agree on the K eigenvalues, the Euler characteristic, the
diameter, the clustering coefficient and the two complexities produce
byte-identical SHA-256 inputs — hence byte-identical digests — regardless
of every other field, in particular of the `operations` hash map and its
iteration order. -/
theorem generate_phash_deterministic
    (ev1 ev2 : List ℝ) (t1 t2 : TopologicalSignature)
    (s1 s2 : SemanticFingerprint)
    (hev : ev1 = ev2) (hE : t1.euler_char = t2.euler_char)
    (hd : t1.diameter = t2.diameter) (hc : t1.clustering = t2.clustering)
    (hcy : s1.cyclomatic = s2.cyclomatic) (hco : s1.cognitive = s2.cognitive) :
    generate_phash_input ev1 t1 s1 = generate_phash_input ev2 t2 s2 := by
  rw [generate_phash_input, generate_phash_input, hev, hE, hd, hc, hcy, hco]

/-- A topology agreeing with `topoA` on the hashed fields but with different
Betti numbers and modularity. -/
noncomputable def topoB : TopologicalSignature := ⟨[9, 9, 9], 1, 3, 0.5, 0.123⟩

/-- Witness for C9: the hashed byte stream ignores the operation-type map,
the pattern list, the dependency depth, the Betti numbers and the
modularity. -/
theorem generate_phash_deterministic_witness :
    ([(1 : ℝ)] = [(1 : ℝ)] ∧ topoA.euler_char = topoB.euler_char ∧
      topoA.diameter = topoB.diameter ∧ topoA.clustering = topoB.clustering ∧
      (⟨[], 2, 4, [], 2⟩ : SemanticFingerprint).cyclomatic
        = (⟨[(.Io, 1)], 2, 4, [⟨"map", 1, "h"⟩], 9⟩ : SemanticFingerprint).cyclomatic ∧
      (⟨[], 2, 4, [], 2⟩ : SemanticFingerprint).cognitive
        = (⟨[(.Io, 1)], 2, 4, [⟨"map", 1, "h"⟩], 9⟩ : SemanticFingerprint).cognitive) ∧
    generate_phash_input [1] topoA ⟨[], 2, 4, [], 2⟩
      = generate_phash_input [1] topoB ⟨[(.Io, 1)], 2, 4, [⟨"map", 1, "h"⟩], 9⟩ :=
  ⟨⟨rfl, rfl, rfl, rfl, rfl, rfl⟩,
    generate_phash_deterministic [1] [1] topoA topoB _ _ rfl rfl rfl rfl rfl rfl⟩

/-! ### C5: `OperationClassifier::get_frequency_spectrum`
(`operations.rs` lines 225-237).  The classifier state is its per-category
count map (`operation_counts`), modelled as a function with 0 for absent
categories; the `HashMap` iteration order is irrelevant because the total
is a sum and each entry is computed independently. -/

/-- Source `OperationCategory::frequency` (`operations.rs` lines 47-76). -/
noncomputable def OperationCategory.frequency : OperationCategory → ℝ
  | .Arithmetic => 432
  | .Logical => 384
  | .Bitwise => 486
  | .Comparison => 408
  | .Assignment => 432
  | .ControlFlow => 512
  | .Loop => 360
  | .Conditional => 456
  | .DataStructure => 396
  | .StringOp => 528
  | .ArrayOp => 444
  | .Async => 639
  | .FunctionCall => 417
  | .Lambda => 741
  | .TypeOperation => 852
  | .MetaProgramming => 963
  | .Reflection => 174
  | .Recursion => 285
  | .SelfReference => 369
  | .Emergence => 432 * 1.618033988749895
  | .Consciousness => 432 * Real.pi

/-- The closed enumeration of all 21 operation categories. -/
def allCategories : List OperationCategory :=
  [.Arithmetic, .Logical, .Bitwise, .Comparison, .Assignment,
   .ControlFlow, .Loop, .Conditional,
   .DataStructure, .StringOp, .ArrayOp,
   .Async, .FunctionCall, .Lambda,
   .TypeOperation, .MetaProgramming, .Reflection,
   .Recursion, .SelfReference, .Emergence, .Consciousness]

/-- Source `let total: usize = self.operation_counts.values().sum()`. -/
def totalCount (counts : OperationCategory → ℕ) : ℕ :=
  (allCategories.map counts).sum

/-- Source `OperationClassifier::get_frequency_spectrum`: the empty classifier
returns the empty map (all-zero spectrum here); otherwise every present
category maps to `cat.frequency() * (count / total)` — the frequency-scaled
weight, not the weight itself. -/
noncomputable def get_frequency_spectrum (counts : OperationCategory → ℕ)
    (cat : OperationCategory) : ℝ :=
  if totalCount counts = 0 then 0
  else cat.frequency * ((counts cat : ℝ) / (totalCount counts : ℝ))

/-- The classifier state after classifying exactly one arithmetic node. -/
def countsOne : OperationCategory → ℕ :=
  fun c => if c = .Arithmetic then 1 else 0

theorem le_sum_of_mem (counts : OperationCategory → ℕ) :
    ∀ (l : List OperationCategory), ∀ c ∈ l, counts c ≤ (l.map counts).sum := by
  intro l
  induction l with
  | nil => intro c hc; cases hc
  | cons a t ih =>
    intro c hc
    rcases List.mem_cons.mp hc with hh | hh
    · subst hh
      simp only [List.map_cons, List.sum_cons]
      exact Nat.le_add_right _ _
    · calc counts c ≤ (t.map counts).sum := ih c hh
        _ ≤ counts a + (t.map counts).sum := Nat.le_add_left _ _

theorem mem_allCategories (c : OperationCategory) : c ∈ allCategories := by
  cases c <;> decide

theorem listSum_div (l : List ℝ) (T : ℝ) :
    (l.map (fun x => x / T)).sum = l.sum / T := by
  induction l with
  | nil => simp
  | cons a t ih => simp [ih, add_div]

/-- C5 counterexample: after classifying a single arithmetic node, the
entry the spectrum returns for `Arithmetic` is `432.0` — the category
frequency times the weight — so it neither lies in `[0,1]` nor do the
entries over present categories sum to 1 (their sum is 432). -/
theorem spectrum_counterexample :
    get_frequency_spectrum countsOne .Arithmetic = 432 ∧
    ¬ get_frequency_spectrum countsOne .Arithmetic ≤ 1 ∧
    ((allCategories.filter (fun c => 0 < countsOne c)).map
      (get_frequency_spectrum countsOne)).sum = 432 := by
  have htot : totalCount countsOne = 1 := by decide
  have hval : get_frequency_spectrum countsOne .Arithmetic = 432 := by
    rw [get_frequency_spectrum, if_neg (by rw [htot]; exact one_ne_zero), htot]
    have h1 : countsOne .Arithmetic = 1 := by decide
    rw [h1]
    norm_num [OperationCategory.frequency]
  have hfilter : allCategories.filter (fun c => 0 < countsOne c)
      = [.Arithmetic] := by decide
  refine ⟨hval, by rw [hval]; norm_num, ?_⟩
  rw [hfilter]
  simp [hval]

/-- C5 amended: the spectrum entry for a category is
`frequency(cat) * (count/total)`, not the normalized weight itself; the
underlying relative weights `count/total` do lie in `[0,1]` and sum to 1
over all categories (absent ones contributing 0), but the returned values
are frequency-scaled. -/
theorem spectrum_amended (counts : OperationCategory → ℕ)
    (h : 0 < totalCount counts) :
    (∀ cat, get_frequency_spectrum counts cat
        = cat.frequency * ((counts cat : ℝ) / (totalCount counts : ℝ))) ∧
    (∀ cat, 0 ≤ (counts cat : ℝ) / (totalCount counts : ℝ)) ∧
    (∀ cat, (counts cat : ℝ) / (totalCount counts : ℝ) ≤ 1) ∧
    (allCategories.map
      (fun cat => (counts cat : ℝ) / (totalCount counts : ℝ))).sum = 1 := by
  have hT0 : (totalCount counts : ℝ) ≠ 0 := by
    simp only [ne_eq, Nat.cast_eq_zero]
    omega
  refine ⟨?_, ?_, ?_, ?_⟩
  · intro cat
    rw [get_frequency_spectrum, if_neg (by omega)]
  · intro cat
    exact div_nonneg (Nat.cast_nonneg _) (Nat.cast_nonneg _)
  · intro cat
    rw [div_le_one (by exact_mod_cast h)]
    exact_mod_cast le_sum_of_mem counts allCategories cat (mem_allCategories cat)
  · have h1 : (allCategories.map
        (fun cat => (counts cat : ℝ) / (totalCount counts : ℝ)))
        = (allCategories.map (fun cat => (counts cat : ℝ))).map
            (fun x => x / (totalCount counts : ℝ)) := by
      rw [List.map_map]
      rfl
    have h2 : ((totalCount counts : ℕ) : ℝ)
        = (allCategories.map (fun cat => (counts cat : ℝ))).sum := by
      rw [totalCount, Nat.cast_list_sum, List.map_map]
      rfl
    rw [h1, listSum_div, ← h2, div_self hT0]

/-- Witness for the amended C5 at the one-arithmetic-node classifier. -/
theorem spectrum_amended_witness :
    0 < totalCount countsOne ∧
    ((∀ cat, get_frequency_spectrum countsOne cat
        = cat.frequency * ((countsOne cat : ℝ) / (totalCount countsOne : ℝ))) ∧
      (∀ cat, 0 ≤ (countsOne cat : ℝ) / (totalCount countsOne : ℝ)) ∧
      (∀ cat, (countsOne cat : ℝ) / (totalCount countsOne : ℝ) ≤ 1) ∧
      (allCategories.map
        (fun cat => (countsOne cat : ℝ) / (totalCount countsOne : ℝ))).sum = 1) :=
  ⟨by decide, spectrum_amended countsOne (by decide)⟩

/-! ### C8: `SoulExtractor::measure_coherence` (`lib.rs` lines 491-506).
This is the one place where IEEE special values are observable: the guard
on the connectivity division is `node_count() > 0`, so a one-node graph
divides by `(1 * (1 - 1)) as f64 = 0.0`.  `F64` models an `f64` as finite,
+infinity, -infinity or NaN; `add`/`mul`/`div` follow IEEE-754, and
`rmin`/`rmax` follow the Rust `f64::min`/`f64::max`, which IGNORE a NaN
argument and return the other one. -/

inductive F64 where
  | fin (x : ℝ)
  | pinf
  | ninf
  | nan

noncomputable def F64.add : F64 → F64 → F64
  | .nan, _ => .nan
  | _, .nan => .nan
  | .fin a, .fin b => .fin (a + b)
  | .pinf, .ninf => .nan
  | .ninf, .pinf => .nan
  | .pinf, _ => .pinf
  | _, .pinf => .pinf
  | .ninf, _ => .ninf
  | _, .ninf => .ninf

noncomputable def F64.mul : F64 → F64 → F64
  | .nan, _ => .nan
  | _, .nan => .nan
  | .fin a, .fin b => .fin (a * b)
  | .pinf, .fin b => if b = 0 then .nan else if 0 < b then .pinf else .ninf
  | .fin a, .pinf => if a = 0 then .nan else if 0 < a then .pinf else .ninf
  | .ninf, .fin b => if b = 0 then .nan else if 0 < b then .ninf else .pinf
  | .fin a, .ninf => if a = 0 then .nan else if 0 < a then .ninf else .pinf
  | .pinf, .pinf => .pinf
  | .ninf, .ninf => .pinf
  | .pinf, .ninf => .ninf
  | .ninf, .pinf => .ninf

noncomputable def F64.div : F64 → F64 → F64
  | .nan, _ => .nan
  | _, .nan => .nan
  | .fin a, .fin b =>
      if b = 0 then (if a = 0 then .nan else if 0 < a then .pinf else .ninf)
      else .fin (a / b)
  | .pinf, .fin b => if 0 ≤ b then .pinf else .ninf
  | .ninf, .fin b => if 0 ≤ b then .ninf else .pinf
  | .fin _, .pinf => .fin 0
  | .fin _, .ninf => .fin 0
  | .pinf, .pinf => .nan
  | .pinf, .ninf => .nan
  | .ninf, .pinf => .nan
  | .ninf, .ninf => .nan

/-- Rust `f64::min`: if one argument is NaN, the other is returned. -/
noncomputable def F64.rmin : F64 → F64 → F64
  | .nan, y => y
  | x, .nan => x
  | .fin a, .fin b => .fin (min a b)
  | .ninf, _ => .ninf
  | _, .ninf => .ninf
  | .fin a, .pinf => .fin a
  | .pinf, .fin b => .fin b
  | .pinf, .pinf => .pinf

/-- Rust `f64::max`: if one argument is NaN, the other is returned. -/
noncomputable def F64.rmax : F64 → F64 → F64
  | .nan, y => y
  | x, .nan => x
  | .fin a, .fin b => .fin (max a b)
  | .pinf, _ => .pinf
  | _, .pinf => .pinf
  | .fin a, .ninf => .fin a
  | .ninf, .fin b => .fin b
  | .ninf, .ninf => .ninf

/-- Source `SoulExtractor::measure_coherence`: `variance` is the mean of
`(e - PHI)^2` over the signature, `connectivity` is
`edge_count / (node_count * (node_count - 1)) as f64` guarded only by
`node_count() > 0`, and the result is
`(connectivity * (1/(1+variance))).min(1.0).max(0.0)`.
`n * (n - 1)` is `usize` arithmetic, then cast to `f64`. -/
noncomputable def measure_coherence (n e : ℕ) (eigenvalues : List ℝ) : F64 :=
  let variance : F64 :=
    F64.div (.fin ((eigenvalues.map (fun x => (x - PHI) ^ 2)).sum))
      (.fin (eigenvalues.length : ℝ))
  let connectivity : F64 :=
    if 0 < n then F64.div (.fin (e : ℝ)) (.fin ((n * (n - 1) : ℕ) : ℝ))
    else .fin 0
  let coherence :=
    F64.mul connectivity (F64.div (.fin 1) (F64.add (.fin 1) variance))
  F64.rmax (F64.rmin coherence (.fin 1)) (.fin 0)

theorem sum_sq_nonneg (l : List ℝ) (c : ℝ) :
    0 ≤ (l.map (fun x => (x - c) ^ 2)).sum := by
  induction l with
  | nil => simp
  | cons a t ih =>
    simp only [List.map_cons, List.sum_cons]
    exact add_nonneg (sq_nonneg _) ih

/-- C8 counterexample: a single-node graph (N = 1, E = 0, signature
`[PHI; 7]`) takes the `node_count() > 0` branch and divides `0.0 / 0.0`;
the NaN is then clamped by the NaN-ignoring Rust `min`/`max` to exactly
`1.0` — not `0`, as claimed via `connectivity = 0 when N < 2`. -/
theorem coherence_counterexample :
    measure_coherence 1 0 (List.replicate 7 PHI) = .fin 1 ∧
    F64.fin (1 : ℝ) ≠ F64.fin 0 := by
  constructor
  · have hvar : ((List.replicate 7 PHI).map (fun x => (x - PHI) ^ 2)).sum
        = (0 : ℝ) := by
      simp
    simp only [measure_coherence, hvar]
    norm_num [F64.div, F64.add, F64.mul, F64.rmin, F64.rmax]
  · intro hc
    rw [F64.fin.injEq] at hc
    norm_num at hc

/-- C8 amended: the source guards the connectivity division with
`node_count() > 0`, not `N ≥ 2`.  Consequently: for N = 0 the coherence is
0; for N ≥ 2 it is `clamp(connectivity * 1/(1+variance), 0, 1)` exactly as
claimed; but for N = 1 the division by zero produces NaN (E = 0) or +∞
(E > 0) and the NaN-ignoring `min`/`max` clamp the result to exactly 1,
not 0.  In every case the returned value is finite and lies in [0,1]. -/
theorem measure_coherence_cases (n e : ℕ) (evs : List ℝ) (hne : evs ≠ []) :
    (n = 0 → measure_coherence n e evs = .fin 0) ∧
    (n = 1 → measure_coherence n e evs = .fin 1) ∧
    (2 ≤ n → measure_coherence n e evs =
      .fin (max (min ((e : ℝ) / ((n * (n - 1) : ℕ) : ℝ)
        * (1 / (1 + (evs.map (fun x => (x - PHI) ^ 2)).sum / (evs.length : ℝ))))
        1) 0)) ∧
    (∃ x : ℝ, measure_coherence n e evs = .fin x ∧ 0 ≤ x ∧ x ≤ 1) := by
  have hLpos : (0 : ℝ) < (evs.length : ℝ) := by
    have : 0 < evs.length := List.length_pos.mpr hne
    exact_mod_cast this
  have hS : (0 : ℝ) ≤ (evs.map (fun x => (x - PHI) ^ 2)).sum :=
    sum_sq_nonneg evs PHI
  have hv0 : (0 : ℝ) ≤ (evs.map (fun x => (x - PHI) ^ 2)).sum / (evs.length : ℝ) :=
    div_nonneg hS (le_of_lt hLpos)
  have hvar : F64.div (.fin ((evs.map (fun x => (x - PHI) ^ 2)).sum))
      (.fin (evs.length : ℝ))
      = .fin ((evs.map (fun x => (x - PHI) ^ 2)).sum / (evs.length : ℝ)) := by
    simp only [F64.div]
    rw [if_neg (by linarith)]
  have hinv : F64.div (.fin 1)
      (F64.add (.fin 1)
        (.fin ((evs.map (fun x => (x - PHI) ^ 2)).sum / (evs.length : ℝ))))
      = .fin (1 / (1 + (evs.map (fun x => (x - PHI) ^ 2)).sum / (evs.length : ℝ))) := by
    simp only [F64.add, F64.div]
    rw [if_neg (by linarith)]
  have hwpos : (0 : ℝ)
      < 1 / (1 + (evs.map (fun x => (x - PHI) ^ 2)).sum / (evs.length : ℝ)) :=
    div_pos one_pos (by linarith)
  have hwne : (1 / (1 + (evs.map (fun x => (x - PHI) ^ 2)).sum / (evs.length : ℝ)))
      ≠ 0 := ne_of_gt hwpos
  have hcase0 : n = 0 → measure_coherence n e evs = .fin 0 := by
    intro hn
    subst hn
    simp only [measure_coherence, hvar, hinv, Nat.lt_irrefl, if_false]
    simp only [F64.mul, F64.rmin, F64.rmax]
    norm_num
  have hcase1 : n = 1 → measure_coherence n e evs = .fin 1 := by
    intro hn
    subst hn
    simp only [measure_coherence, hvar, hinv, Nat.lt_irrefl, if_pos Nat.one_pos]
    have hden : (((1 * (1 - 1) : ℕ)) : ℝ) = 0 := by norm_num
    rw [hden]
    by_cases he0 : e = 0
    · subst he0
      simp only [F64.div, Nat.cast_zero, if_pos rfl]
      simp only [F64.mul, F64.rmin, F64.rmax]
      norm_num
    · have hepos : (0 : ℝ) < (e : ℝ) := by
        have : 0 < e := Nat.pos_of_ne_zero he0
        exact_mod_cast this
      have hene : ((e : ℝ) = 0) = False := by
        simp only [eq_iff_iff, iff_false]
        linarith
      simp only [F64.div, hene, if_false, hepos, if_true, eq_self_iff_true]
      simp only [F64.mul, hwne, if_false, hwpos, if_true]
      simp only [F64.rmin, F64.rmax]
      norm_num
  have hcase2 : 2 ≤ n → measure_coherence n e evs =
      .fin (max (min ((e : ℝ) / ((n * (n - 1) : ℕ) : ℝ)
        * (1 / (1 + (evs.map (fun x => (x - PHI) ^ 2)).sum / (evs.length : ℝ))))
        1) 0) := by
    intro hn
    simp only [measure_coherence, hvar, hinv, if_pos (by omega : 0 < n)]
    have hm : ((n * (n - 1) : ℕ) : ℝ) ≠ 0 := by
      have hmn : n * (n - 1) ≠ 0 :=
        Nat.mul_ne_zero (by omega) (by omega)
      exact Nat.cast_ne_zero.mpr hmn
    simp only [F64.div]
    rw [if_neg hm]
    simp only [F64.mul, F64.rmin, F64.rmax]
  have hbound : ∃ x : ℝ, measure_coherence n e evs = .fin x ∧ 0 ≤ x ∧ x ≤ 1 := by
    rcases Nat.lt_or_ge n 2 with hlt | hge
    · interval_cases n
      · exact ⟨0, hcase0 rfl, le_refl 0, by norm_num⟩
      · exact ⟨1, hcase1 rfl, by norm_num, le_refl 1⟩
    · refine ⟨_, hcase2 hge, le_max_right _ _, ?_⟩
      exact max_le (min_le_right _ _) (by norm_num)
  exact ⟨hcase0, hcase1, hcase2, hbound⟩

/-- Witness for the amended C8 at N = 2, E = 1, signature `[PHI]`. -/
theorem measure_coherence_cases_witness :
    ([PHI] : List ℝ) ≠ [] ∧
    ((2 = 0 → measure_coherence 2 1 [PHI] = .fin 0) ∧
      (2 = 1 → measure_coherence 2 1 [PHI] = .fin 1) ∧
      (2 ≤ 2 → measure_coherence 2 1 [PHI] =
        .fin (max (min (((1 : ℕ) : ℝ) / (((2 * (2 - 1) : ℕ)) : ℝ)
          * (1 / (1 + (([PHI] : List ℝ).map (fun x => (x - PHI) ^ 2)).sum
              / ((([PHI] : List ℝ).length : ℕ) : ℝ)))) 1) 0)) ∧
      (∃ x : ℝ, measure_coherence 2 1 [PHI] = .fin x ∧ 0 ≤ x ∧ x ≤ 1)) :=
  ⟨by simp, measure_coherence_cases 2 1 [PHI] (by simp)⟩

end ProteinHash
